import Mathlib

/-!
Shallow embedding of scripts/update_readme.py.

The script has three stages:
* collect_examples : walks BASE_DIR with os.walk, groups files ending in
  ".java" by os.path.relpath(root, BASE_DIR);
* generate_section : renders the topic map as a Markdown bullet list,
  topics and files sorted; builds each link path with os.path.join and
  .replace("\\", "/"), display names with f[:-5] and topic.capitalize();
* replace_section : re.sub of the lazy DOTALL pattern
  "## 📑 Topics & Examples.*?## 🛠 Requirements" by
  new_section + "\n## 🛠 Requirements".

Python string/regex primitives are modelled on String.data (code-point
lists), which matches CPython string semantics.  Fallible operations
(re.error) are modelled with Option.
-/

set_option maxRecDepth 20000

namespace UpdateReadme

/-- The fixed scan root of the script (module constant BASE_DIR). -/
def BASE_DIR : String := "src/main/java"

/-- Python s.endswith(suffix), on code points. -/
def pyEndsWith (s sfx : String) : Bool := sfx.data.isSuffixOf s.data

/-- Python s.startswith(p), on code points. -/
def pyStartsWith (s p : String) : Bool := p.data.isPrefixOf s.data

/-- Python slice s[:-n] (empty when n is at least the length). -/
def pySliceDrop (s : String) (n : Nat) : String :=
  String.mk (s.data.take (s.data.length - n))

/-- Python str.capitalize restricted to ASCII case mapping: first
character upper-cased, every remaining character lower-cased. -/
def pyCapitalize (s : String) : String :=
  match s.data with
  | [] => String.mk []
  | c :: cs => String.mk (c.toUpper :: cs.map Char.toLower)

/-- Python s.replace("\\", "/"): the pattern and replacement are single
characters, so the substring replace is a character map. -/
def slashify (s : String) : String :=
  String.mk (s.data.map (fun c => if c = '\\' then '/' else c))

/-- posixpath.join for two components: an absolute second component
resets the path, otherwise a "/" separator is inserted unless the first
component is empty or already ends with "/". -/
def pjoin (a b : String) : String :=
  if pyStartsWith b "/" then b
  else if a = "" || pyEndsWith a "/" then a ++ b
  else a ++ "/" ++ b

/-- Stable insertion of x into a list: x goes before the first element
y with x ≤ y, so earlier input elements precede equal later ones. -/
def pyInsert {α : Type} (le : α → α → Bool) (x : α) : List α → List α
  | [] => [x]
  | y :: ys => if le x y then x :: y :: ys else y :: pyInsert le x ys

/-- Python sorted: a stable sort.  Under a total transitive comparison a
stable sort's output is unique, so insertion sort is extensionally the
same function as CPython's timsort. -/
def pySort {α : Type} (le : α → α → Bool) : List α → List α
  | [] => []
  | x :: xs => pyInsert le x (pySort le xs)

/-- Python sorted on a list of strings (code-point lexicographic). -/
def sortFiles (files : List String) : List String :=
  pySort (fun a b => decide (a.data ≤ b.data)) files

/-- Python sorted(topics.items()); dict keys are unique, so the tuple
comparison reduces to comparison of the keys. -/
def sortTopics (topics : List (String × List String)) :
    List (String × List String) :=
  pySort (fun a b => decide (a.1.data ≤ b.1.data)) topics

/-- The topic bullet line: f"- **{topic.capitalize()}**". -/
def topicLine (topic : String) : String :=
  "- **" ++ pyCapitalize topic ++ "**"

/-- The topic bullet line as the specification words it: the first
character upper-cased, every remaining character of the key left
unchanged.  Stated for comparison with topicLine, which follows the
code. -/
def topicLineSpec (topic : String) : String :=
  "- **" ++
    (match topic.data with
      | [] => String.mk []
      | c :: cs => String.mk (c.toUpper :: cs)) ++ "**"

/-- The link target: os.path.join(BASE_DIR, topic, f).replace("\\", "/"). -/
def examplePath (topic f : String) : String :=
  slashify (pjoin (pjoin BASE_DIR topic) f)

/-- The example bullet line: f"  - [{name}]({path})" with name = f[:-5]. -/
def exampleLine (topic f : String) : String :=
  "  - [" ++ pySliceDrop f 5 ++ "](" ++ examplePath topic f ++ ")"

/-- The lines contributed by one topic: its bullet line, one line per
sorted file, then the empty line appended after the loop. -/
def topicBlock (topic : String) (files : List String) : List String :=
  topicLine topic :: ((sortFiles files).map (exampleLine topic) ++ [""])

/-- generate_section: header line, then the sorted topics rendered in
order, joined with "\n". -/
def generate_section (topics : List (String × List String)) : String :=
  String.intercalate "\n"
    ("## 📑 Topics & Examples\n" ::
      (sortTopics topics).flatMap (fun p => topicBlock p.1 p.2))

/-! ## Collector -/

mutual

/-- A directory tree: the plain files directly inside the directory and
the forest of named subdirectories.  (A mutual inductive stands in for
List (String × DirTree), which Lean compiles less conveniently.) -/
inductive DirTree where
  | mk : List String → DirForest → DirTree

/-- A forest of named subdirectories. -/
inductive DirForest where
  | nil : DirForest
  | cons : String → DirTree → DirForest → DirForest

end

/-- Plain files directly inside the directory. -/
def DirTree.files : DirTree → List String
  | .mk fs _ => fs

/-- The forest of named subdirectories. -/
def DirTree.subdirs : DirTree → DirForest
  | .mk _ ss => ss

/-- The topics accumulator: insertion-ordered association list modelling
the Python dict. -/
abbrev Topics := List (String × List String)

/-- topics.setdefault(key, []).append(f): append f to the entry of key,
creating the entry at the end when absent. -/
def addFile (acc : Topics) (key f : String) : Topics :=
  match acc with
  | [] => [(key, [f])]
  | (k, fs) :: rest =>
    if k = key then (k, fs ++ [f]) :: rest else (k, fs) :: addFile rest key f

/-- The body of the os.walk loop for one directory: append every file
ending in ".java" under the directory's key. -/
def collectDir (key : String) (files : List String) (acc : Topics) : Topics :=
  files.foldl (fun a f => if pyEndsWith f ".java" then addFile a key f else a) acc

/-- os.path.relpath of a child directory, given the relpath of its
parent: the root itself is "." and deeper paths join with "/". -/
def childKey (rel n : String) : String :=
  if rel = "." then n else rel ++ "/" ++ n

mutual

/-- Size of a tree, used as fuel for the walk. -/
def treeSize : DirTree → Nat
  | .mk _ subs => 1 + forestSize subs

/-- Size of a forest, used as fuel for the walk. -/
def forestSize : DirForest → Nat
  | .nil => 1
  | .cons _ sub rest => 1 + treeSize sub + forestSize rest

end

theorem treeSize_mk (fs : List String) (subs : DirForest) :
    treeSize (.mk fs subs) = 1 + forestSize subs := rfl

theorem forestSize_nil : forestSize .nil = 1 := rfl

theorem forestSize_cons (n : String) (sub : DirTree) (rest : DirForest) :
    forestSize (.cons n sub rest) = 1 + treeSize sub + forestSize rest := rfl

theorem files_mk (fs : List String) (ss : DirForest) :
    (DirTree.mk fs ss).files = fs := rfl

theorem subdirs_mk (fs : List String) (ss : DirForest) :
    (DirTree.mk fs ss).subdirs = ss := rfl

theorem forestSize_pos (subs : DirForest) : 1 ≤ forestSize subs := by
  cases subs with
  | nil => rw [forestSize_nil]
  | cons n sub rest => rw [forestSize_cons]; omega

/-- os.walk over a forest of subdirectories, left to right, on explicit
fuel: entering a subdirectory collects its own .java files first, then
walks its subtrees in order (top-down).  Fuel at least the forest size
makes the fuel irrelevant (collectSubsF_congr below). -/
def collectSubsF : Nat → String → DirForest → Topics → Topics
  | 0, _, _, acc => acc
  | _ + 1, _, .nil, acc => acc
  | fuel + 1, rel, .cons n sub rest, acc =>
    collectSubsF fuel rel rest
      (collectSubsF fuel (childKey rel n) sub.subdirs
        (collectDir (childKey rel n) sub.files acc))

/-- os.walk from a directory whose relpath is rel, top-down: the
directory's own files first, then each subtree in order. -/
def collectWalk (rel : String) (t : DirTree) (acc : Topics) : Topics :=
  collectSubsF (forestSize t.subdirs) rel t.subdirs (collectDir rel t.files acc)

/-- The walk over the subdirectories, left to right. -/
def collectSubs (rel : String) (subs : DirForest) (acc : Topics) : Topics :=
  collectSubsF (forestSize subs) rel subs acc

theorem collectSubsF_succ_nil (fuel : Nat) (rel : String) (acc : Topics) :
    collectSubsF (fuel + 1) rel .nil acc = acc := rfl

theorem collectSubsF_succ_cons (fuel : Nat) (rel n : String) (sub : DirTree)
    (rest : DirForest) (acc : Topics) :
    collectSubsF (fuel + 1) rel (.cons n sub rest) acc =
      collectSubsF fuel rel rest
        (collectSubsF fuel (childKey rel n) sub.subdirs
          (collectDir (childKey rel n) sub.files acc)) := rfl

/-- Fuel independence, by strong induction on the forest size: any fuel
at least the forest size computes the same walk. -/
theorem collectSubsF_congr_aux (N : Nat) : ∀ (subs : DirForest), forestSize subs ≤ N →
    ∀ (f1 f2 : Nat) (rel : String) (acc : Topics),
    forestSize subs ≤ f1 → forestSize subs ≤ f2 →
    collectSubsF f1 rel subs acc = collectSubsF f2 rel subs acc := by
  induction N using Nat.strong_induction_on with
  | h N ih =>
    intro subs hN f1 f2 rel acc h1 h2
    cases subs with
    | nil =>
      rw [forestSize_nil] at h1 h2
      cases f1 with
      | zero => exact absurd h1 (by omega)
      | succ g1 =>
        cases f2 with
        | zero => exact absurd h2 (by omega)
        | succ g2 => rw [collectSubsF_succ_nil, collectSubsF_succ_nil]
    | cons n sub rest =>
      rw [forestSize_cons] at hN h1 h2
      cases f1 with
      | zero => exact absurd h1 (by omega)
      | succ g1 =>
        cases f2 with
        | zero => exact absurd h2 (by omega)
        | succ g2 =>
          rw [collectSubsF_succ_cons, collectSubsF_succ_cons]
          cases sub with
          | mk sf ss =>
            rw [treeSize_mk] at hN h1 h2
            rw [subdirs_mk, files_mk]
            have hposr := forestSize_pos rest
            have hposs := forestSize_pos ss
            have hinner : collectSubsF g1 (childKey rel n) ss
                  (collectDir (childKey rel n) sf acc) =
                collectSubsF g2 (childKey rel n) ss
                  (collectDir (childKey rel n) sf acc) :=
              @ih (forestSize ss) (by omega) ss (Nat.le_refl _) g1 g2 (childKey rel n)
                (collectDir (childKey rel n) sf acc) (by omega) (by omega)
            rw [hinner]
            exact @ih (forestSize rest) (by omega) rest (Nat.le_refl _) g1 g2 rel
              (collectSubsF g2 (childKey rel n) ss (collectDir (childKey rel n) sf acc))
              (by omega) (by omega)

theorem collectSubsF_congr (f1 f2 : Nat) (rel : String) (subs : DirForest) (acc : Topics)
    (h1 : forestSize subs ≤ f1) (h2 : forestSize subs ≤ f2) :
    collectSubsF f1 rel subs acc = collectSubsF f2 rel subs acc :=
  collectSubsF_congr_aux (forestSize subs) subs (Nat.le_refl _) f1 f2 rel acc h1 h2

/-- collect_examples: os.walk over a nonexistent BASE_DIR yields nothing,
so the mapping stays empty; otherwise the walk starts at the root with
relpath ".". -/
def collect_examples (root : Option DirTree) : Topics :=
  match root with
  | none => []
  | some t => collectWalk "." t []

mutual

/-- All directories of a tree with their relpath keys, in walk order. -/
def dirsOf (rel : String) : DirTree → List (String × DirTree)
  | .mk files subs => (rel, .mk files subs) :: dirsOfSubs rel subs

/-- All directories of a subdirectory forest with their relpath keys. -/
def dirsOfSubs (rel : String) : DirForest → List (String × DirTree)
  | .nil => []
  | .cons n sub rest => dirsOf (childKey rel n) sub ++ dirsOfSubs rel rest

end

/-- The relpath keys of all directories of a tree, in walk order. -/
def treeKeys (rel : String) (t : DirTree) : List String :=
  (dirsOf rel t).map Prod.fst

/-- The ".java" files of a file list, in order. -/
def javaF (files : List String) : List String :=
  files.filter (fun f => pyEndsWith f ".java")

/-! ## Splicer -/

/-- The literal head of the pattern: the start heading. -/
def Smark : List Char := "## 📑 Topics & Examples".data

/-- The literal tail of the pattern: the end heading. -/
def Emark : List Char := "## 🛠 Requirements".data

/-- One piece of a parsed re replacement template: a literal character
or a reference to group 0 (the whole match). -/
inductive TplItem where
  | lit : Char → TplItem
  | group0 : TplItem
deriving DecidableEq

/-- A purely literal template. -/
def litTpl (l : List Char) : List TplItem := l.map TplItem.lit

/-- Decimal value of a digit string. -/
def digitsVal (ds : List Char) : Nat :=
  ds.foldl (fun n c => n * 10 + (c.toNat - 48)) 0

/-- Octal digit test. -/
def isOct (c : Char) : Bool := '0' ≤ c && c ≤ '7'

/-- Octal value of a digit list. -/
def octVal (ds : List Char) : Nat :=
  ds.foldl (fun n c => n * 8 + (c.toNat - 48)) 0

theorem length_dropWhile_le (p : Char → Bool) (l : List Char) :
    (l.dropWhile p).length ≤ l.length := by
  induction l with
  | nil => simp
  | cons c rest ih =>
    by_cases hp : p c <;> simp [List.dropWhile_cons, hp] <;> omega

/-- Parse a \g<...> group reference after the "g": expects "<", a
nonempty run of decimal digits, then ">"; returns the group number and
the rest.  Named groups fail because the pattern defines none. -/
def readGroupRef : List Char → Option (Nat × List Char)
  | [] => none
  | c :: rest =>
    if c = '<' then
      match rest.dropWhile Char.isDigit with
      | g :: rest3 =>
        if g = '>' && !(rest.takeWhile Char.isDigit).isEmpty then
          some (digitsVal (rest.takeWhile Char.isDigit), rest3)
        else none
      | [] => none
    else none

theorem readGroupRef_length {l : List Char} {n : Nat} {r : List Char}
    (h : readGroupRef l = some (n, r)) : r.length < l.length := by
  cases l with
  | nil => simp [readGroupRef] at h
  | cons c rest =>
    simp only [readGroupRef] at h
    by_cases hc : c = '<'
    · rw [if_pos hc] at h
      rcases hdw : rest.dropWhile Char.isDigit with _ | ⟨g, rest3⟩
      · simp only [hdw] at h; exact absurd h (by simp)
      · simp only [hdw] at h
        by_cases hg : (g = '>' && !(rest.takeWhile Char.isDigit).isEmpty) = true
        · rw [if_pos hg] at h
          simp only [Option.some.injEq, Prod.mk.injEq] at h
          have hle : (rest.dropWhile Char.isDigit).length ≤ rest.length :=
            length_dropWhile_le _ _
          rw [hdw] at hle
          simp only [List.length_cons] at hle
          rw [← h.2]
          simp only [List.length_cons]
          omega
        · rw [if_neg hg] at h; simp at h
    · rw [if_neg hc] at h; simp at h

/-- CPython ESCAPES table for replacement templates (re._parser). -/
def escChar : Char → Option Char
  | 'a' => some (Char.ofNat 7)
  | 'b' => some (Char.ofNat 8)
  | 'f' => some (Char.ofNat 12)
  | 'n' => some '\n'
  | 'r' => some '\r'
  | 't' => some '\t'
  | 'v' => some (Char.ofNat 11)
  | '\\' => some '\\'
  | _ => none

/-- Resolve one backslash escape of a replacement template, given the
text after the backslash (re._parser.parse_template, zero capture
groups): any reference to a group other than 0 is an error, as is an
unknown escape of an ASCII letter or a trailing backslash.  Unknown
escapes of non-letters keep the backslash.  Octal escapes \0oo are
resolved modulo 0x100; \ooo above 0o377 is an error.  Returns the
parsed items and the remaining input. -/
def tplEsc : List Char → Option (List TplItem × List Char)
  | [] => none
  | c :: more =>
    if c = 'g' then
      match readGroupRef more with
      | some (n, rest3) =>
        if n = 0 then some ([TplItem.group0], rest3) else none
      | none => none
    else if c = '0' then
      match more with
      | d1 :: d2 :: more2 =>
        if isOct d1 && isOct d2 then
          some ([TplItem.lit (Char.ofNat (octVal ['0', d1, d2] % 256))], more2)
        else if isOct d1 then
          some ([TplItem.lit (Char.ofNat (octVal ['0', d1] % 256))], d2 :: more2)
        else some ([TplItem.lit (Char.ofNat 0)], d1 :: d2 :: more2)
      | [d1] =>
        if isOct d1 then
          some ([TplItem.lit (Char.ofNat (octVal ['0', d1] % 256))], [])
        else some ([TplItem.lit (Char.ofNat 0)], [d1])
      | [] => some ([TplItem.lit (Char.ofNat 0)], [])
    else if c.isDigit then
      match more with
      | d2 :: d3 :: more2 =>
        if d2.isDigit then
          if isOct c && isOct d2 && isOct d3 then
            if 255 < octVal [c, d2, d3] then none
            else some ([TplItem.lit (Char.ofNat (octVal [c, d2, d3]))], more2)
          else none
        else none
      | _ => none
    else
      match escChar c with
      | some e => some ([TplItem.lit e], more)
      | none =>
        if c.isAlpha then none
        else some ([TplItem.lit '\\', TplItem.lit c], more)

theorem tplEsc_length {l : List Char} {items : List TplItem} {r : List Char}
    (h : tplEsc l = some (items, r)) : r.length ≤ l.length := by
  cases l with
  | nil => simp [tplEsc] at h
  | cons c more =>
    simp only [tplEsc] at h
    repeat' split at h
    all_goals try exact Option.noConfusion h
    all_goals simp only [Option.some.injEq, Prod.mk.injEq] at h
    all_goals obtain ⟨h1, h2⟩ := h
    all_goals subst h2
    all_goals simp only [List.length_cons, List.length_nil]
    all_goals try omega
    all_goals rename_i hgr hn
    all_goals have := readGroupRef_length hgr
    all_goals omega

/-- Fuel-indexed template parser; each step consumes at least one
character, so fuel equal to the input length always suffices. -/
def tplParseF : Nat → List Char → Option (List TplItem)
  | _, [] => some []
  | 0, _ :: _ => none
  | fuel + 1, c :: rest =>
    if c = '\\' then
      match tplEsc rest with
      | none => none
      | some (items, r2) => (tplParseF fuel r2).map (fun is => items ++ is)
    else (tplParseF fuel rest).map (fun is => TplItem.lit c :: is)

/-- re._parser.parse_template for a pattern with zero capture groups:
literal characters pass through, each backslash escape is resolved by
tplEsc, and a failure there is the re.error the parser raises. -/
def tplParse (l : List Char) : Option (List TplItem) :=
  tplParseF l.length l

theorem tplParseF_congr : ∀ {f1 f2 : Nat} {l : List Char},
    l.length ≤ f1 → l.length ≤ f2 → tplParseF f1 l = tplParseF f2 l := by
  intro f1
  induction f1 with
  | zero =>
    intro f2 l h1 h2
    have : l = [] := List.length_eq_zero.mp (Nat.le_zero.mp h1)
    subst this
    cases f2 <;> rfl
  | succ f1 ih =>
    intro f2 l h1 h2
    cases l with
    | nil => cases f2 <;> rfl
    | cons c rest =>
      cases f2 with
      | zero => exact absurd h2 (by simp)
      | succ f2 =>
        simp only [tplParseF]
        simp only [List.length_cons] at h1 h2
        by_cases hc : c = '\\'
        · rw [if_pos hc, if_pos hc]
          rcases he : tplEsc rest with _ | ⟨items, r2⟩
          · simp only [he]
          · simp only [he]
            have hr2 := tplEsc_length he
            rw [@ih f2 r2 (by omega) (by omega)]
        · rw [if_neg hc, if_neg hc, @ih f2 rest (by omega) (by omega)]

theorem tplParse_cons (c : Char) (rest : List Char) :
    tplParse (c :: rest) =
      (if c = '\\' then
        match tplEsc rest with
        | none => none
        | some (items, r2) => (tplParse r2).map (fun is => items ++ is)
      else (tplParse rest).map (fun is => TplItem.lit c :: is)) := by
  show tplParseF (rest.length + 1) (c :: rest) = _
  simp only [tplParseF]
  by_cases hc : c = '\\'
  · rw [if_pos hc, if_pos hc]
    rcases he : tplEsc rest with _ | ⟨items, r2⟩
    · simp only [he]
    · simp only [he]
      have hr2 := tplEsc_length he
      rw [show tplParseF rest.length r2 = tplParseF r2.length r2 from
        tplParseF_congr hr2 (Nat.le_refl _)]
      rfl
  · rw [if_neg hc, if_neg hc]
    rfl

/-- Instantiate a parsed template at a match: literals stay, group 0 is
the whole matched text. -/
def tplRender (m : List Char) : List TplItem → List Char
  | [] => []
  | TplItem.lit c :: is => c :: tplRender m is
  | TplItem.group0 :: is => m ++ tplRender m is

/-- Leftmost occurrence of needle in hay, split as (before, after). -/
def splitOnFirst (needle : List Char) : List Char → Option (List Char × List Char)
  | [] => if needle.isPrefixOf [] then some ([], []) else none
  | c :: rest =>
    if needle.isPrefixOf (c :: rest) then
      some ([], (c :: rest).drop needle.length)
    else (splitOnFirst needle rest).map (fun p => (c :: p.1, p.2))

/-- Leftmost-shortest match of the lazy DOTALL pattern: the first
occurrence of the start heading, extended to the first occurrence of the
end heading after it.  Returns (text before, matched span, text after). -/
def findMatch (cs : List Char) : Option (List Char × List Char × List Char) :=
  match splitOnFirst Smark cs with
  | none => none
  | some (pre, afterS) =>
    match splitOnFirst Emark afterS with
    | none => none
    | some (mid, rest) => some (pre, Smark ++ mid ++ Emark, rest)

/-- Occurrence test for a needle as a contiguous substring. -/
def hasInfix (needle : List Char) : List Char → Bool
  | [] => needle.isPrefixOf []
  | c :: rest => needle.isPrefixOf (c :: rest) || hasInfix needle rest

theorem splitOnFirst_eq_some {n h : List Char} {b a : List Char}
    (H : splitOnFirst n h = some (b, a)) : h = b ++ n ++ a := by
  induction h generalizing b a with
  | nil =>
    simp only [splitOnFirst] at H
    by_cases hp : n.isPrefixOf ([] : List Char)
    · rw [if_pos hp] at H
      simp only [Option.some.injEq, Prod.mk.injEq] at H
      have : n <+: ([] : List Char) := List.isPrefixOf_iff_prefix.mp hp
      have hn : n = [] := List.prefix_nil.mp this
      simp [← H.1, ← H.2, hn]
    · rw [if_neg hp] at H; simp at H
  | cons c rest ih =>
    simp only [splitOnFirst] at H
    by_cases hp : n.isPrefixOf (c :: rest)
    · rw [if_pos hp] at H
      simp only [Option.some.injEq, Prod.mk.injEq] at H
      have : n <+: (c :: rest) := List.isPrefixOf_iff_prefix.mp hp
      have := List.prefix_iff_eq_append.mp this
      simp [← H.1, ← H.2, this]
    · rw [if_neg hp] at H
      match h2 : splitOnFirst n rest with
      | none => rw [h2] at H; simp at H
      | some (b2, a2) =>
        rw [h2] at H
        simp at H
        have := ih h2
        rw [← H.1, ← H.2]
        simp [this]

theorem findMatch_eq_some {cs p m r : List Char}
    (H : findMatch cs = some (p, m, r)) :
    ∃ mid, m = Smark ++ mid ++ Emark ∧ cs = p ++ m ++ r := by
  unfold findMatch at H
  match h1 : splitOnFirst Smark cs with
  | none => rw [h1] at H; simp at H
  | some (pre, afterS) =>
    simp only [h1] at H
    match h2 : splitOnFirst Emark afterS with
    | none => rw [h2] at H; simp at H
    | some (mid, rest) =>
      simp only [h2, Option.some.injEq, Prod.mk.injEq] at H
      obtain ⟨hp, hm, hr⟩ := H
      refine ⟨mid, hm.symm, ?_⟩
      have e1 := splitOnFirst_eq_some h1
      have e2 := splitOnFirst_eq_some h2
      subst hp hr
      rw [← hm]
      simp [e1, e2]

theorem findMatch_rest_length {cs p m r : List Char}
    (H : findMatch cs = some (p, m, r)) : r.length < cs.length := by
  obtain ⟨mid, hm, hcs⟩ := findMatch_eq_some H
  have : cs.length = p.length + m.length + r.length := by simp [hcs]; omega
  have hml : 0 < m.length := by
    rw [hm]
    simp only [List.length_append]
    have : 0 < Smark.length := by decide
    omega
  omega

/-- Fuel-indexed scan of re.sub: each replacement consumes at least one
character of the text, so fuel equal to the text length suffices. -/
def subAllF : Nat → List TplItem → List Char → List Char
  | 0, _, cs => cs
  | fuel + 1, items, cs =>
    match findMatch cs with
    | none => cs
    | some (pre, m, rest) => pre ++ tplRender m items ++ subAllF fuel items rest

/-- re.sub replaces every non-overlapping match, scanning left to right
and resuming after each replacement. -/
def subAll (items : List TplItem) (cs : List Char) : List Char :=
  subAllF cs.length items cs

theorem subAllF_congr : ∀ {f1 f2 : Nat} {items : List TplItem} {cs : List Char},
    cs.length ≤ f1 → cs.length ≤ f2 → subAllF f1 items cs = subAllF f2 items cs := by
  intro f1
  induction f1 with
  | zero =>
    intro f2 items cs h1 h2
    have : cs = [] := List.length_eq_zero.mp (Nat.le_zero.mp h1)
    subst this
    cases f2 <;> rfl
  | succ f1 ih =>
    intro f2 items cs h1 h2
    cases f2 with
    | zero =>
      have : cs = [] := List.length_eq_zero.mp (Nat.le_zero.mp h2)
      subst this
      rfl
    | succ f2 =>
      rcases hm : findMatch cs with _ | ⟨pre, m, rest⟩
      · simp only [subAllF, hm]
      · simp only [subAllF, hm]
        have hrest := findMatch_rest_length hm
        rw [@ih f2 items rest (by omega) (by omega)]

/-- replace_section on code-point lists: the replacement template is
new_section + "\n## 🛠 Requirements"; re.sub parses the template before
scanning, so a bad escape is an error even without a match. -/
def replaceSection (content new_section : List Char) : Option (List Char) :=
  match tplParse (new_section ++ '\n' :: Emark) with
  | none => none
  | some items => some (subAll items content)

/-- replace_section on strings. -/
def replace_section (content new_section : String) : Option String :=
  (replaceSection content.data new_section.data).map String.mk

/-- The marker region of a document: the span of the leftmost-shortest
pattern match, when there is one. -/
def markerRegion (cs : List Char) : Option (List Char) :=
  (findMatch cs).map (fun x => x.2.1)

/-- Backslash test for replacement templates. -/
def hasBS (l : List Char) : Bool := l.contains '\\'

/-! ## Lemmas about the splicer -/

theorem hasInfix_iff {n hay : List Char} : hasInfix n hay = true ↔ n <:+: hay := by
  induction hay with
  | nil =>
    simp only [hasInfix, List.isPrefixOf_iff_prefix]
    exact ⟨fun h => h.isInfix, fun h => (List.infix_nil.mp h) ▸ List.prefix_rfl⟩
  | cons c rest ih =>
    simp only [hasInfix, Bool.or_eq_true, List.isPrefixOf_iff_prefix, ih]
    exact (List.infix_cons_iff).symm

theorem hasInfix_eq_false_iff {n hay : List Char} :
    hasInfix n hay = false ↔ ¬ n <:+: hay := by
  rw [← hasInfix_iff]
  exact Bool.not_eq_true _ |>.symm ▸ Iff.rfl

theorem splitOnFirst_eq_none_iff {n hay : List Char} :
    splitOnFirst n hay = none ↔ hasInfix n hay = false := by
  induction hay with
  | nil =>
    simp only [splitOnFirst, hasInfix]
    by_cases hp : n.isPrefixOf ([] : List Char) <;> simp [hp]
  | cons c rest ih =>
    simp only [splitOnFirst, hasInfix]
    by_cases hp : n.isPrefixOf (c :: rest)
    · simp [hp]
    · simp only [hp, Bool.false_eq_true, if_false, Bool.false_or]
      rw [← ih]
      match h2 : splitOnFirst n rest with
      | none => simp
      | some (b2, a2) => simp

theorem splitOnFirst_at {n : List Char} (hn : n ≠ []) {p t : List Char}
    (h1 : hasInfix n ((p ++ n).dropLast) = false) :
    splitOnFirst n (p ++ n ++ t) = some (p, t) := by
  induction p generalizing t with
  | nil =>
    simp only [List.nil_append]
    cases n with
    | nil => exact absurd rfl hn
    | cons a as =>
      rw [List.cons_append]
      simp only [splitOnFirst]
      have hp : (a :: as).isPrefixOf (a :: (as ++ t)) = true := by
        rw [← List.cons_append]
        exact List.isPrefixOf_iff_prefix.mpr (List.prefix_append _ _)
      rw [if_pos hp, ← List.cons_append, List.drop_left]
  | cons c p' ih =>
    have hxeq : (c :: p') ++ n ++ t = c :: (p' ++ n ++ t) := by simp
    rw [hxeq]
    simp only [splitOnFirst]
    have hcl : (c :: p') ++ n = c :: (p' ++ n) := by simp
    have hne : ¬ n.isPrefixOf (c :: (p' ++ n ++ t)) = true := by
      intro hp
      have hpre : n <+: c :: (p' ++ n ++ t) := List.isPrefixOf_iff_prefix.mp hp
      have hA : n = (c :: (p' ++ n ++ t)).take n.length :=
        List.prefix_iff_eq_take.mp hpre
      have hsplit : c :: (p' ++ n ++ t) = (c :: (p' ++ n)) ++ t := by simp
      have hlen1 : n.length ≤ (c :: (p' ++ n)).length := by
        simp only [List.length_cons, List.length_append]
        omega
      have hB : n = (c :: (p' ++ n)).take n.length := by
        conv_lhs => rw [hA]
        rw [hsplit, List.take_append_of_le_length hlen1]
      have hlen2 : n.length ≤ (c :: (p' ++ n)).length - 1 := by
        simp only [List.length_cons, List.length_append]
        omega
      have hC : n = (c :: (p' ++ n)).dropLast.take n.length := by
        conv_lhs => rw [hB]
        rw [List.dropLast_eq_take, List.take_take, min_eq_left hlen2]
      have hpre2 : n <+: (c :: (p' ++ n)).dropLast :=
        List.prefix_iff_eq_take.mpr hC
      have : hasInfix n ((c :: (p' ++ n)).dropLast) = true :=
        hasInfix_iff.mpr hpre2.isInfix
      rw [← hcl] at this
      rw [h1] at this
      exact Bool.false_ne_true this
    rw [if_neg hne]
    have hpn : p' ++ n ≠ [] := by
      intro hc
      exact hn (List.append_eq_nil.mp hc).2
    have h1' : hasInfix n ((p' ++ n).dropLast) = false := by
      rw [hcl, List.dropLast_cons_of_ne_nil hpn] at h1
      cases hor : hasInfix n ((p' ++ n).dropLast) with
      | false => rfl
      | true =>
        exfalso
        have : hasInfix n (c :: (p' ++ n).dropLast) = true := by
          simp only [hasInfix, Bool.or_eq_true]
          exact Or.inr hor
        rw [h1] at this
        exact Bool.false_ne_true this
    rw [ih h1']
    rfl

theorem splitOnFirst_append_right {n : List Char} (hn : n ≠ []) {u y z t : List Char}
    (h : splitOnFirst n u = some (y, z)) :
    splitOnFirst n (u ++ t) = some (y, z ++ t) := by
  induction u generalizing y z with
  | nil =>
    simp only [splitOnFirst] at h
    have hp : ¬ n.isPrefixOf ([] : List Char) = true := by
      intro hh
      exact hn (List.prefix_nil.mp (List.isPrefixOf_iff_prefix.mp hh))
    rw [if_neg hp] at h
    exact Option.noConfusion h
  | cons c rest ih =>
    simp only [splitOnFirst] at h
    by_cases hp : n.isPrefixOf (c :: rest)
    · rw [if_pos hp] at h
      simp only [Option.some.injEq, Prod.mk.injEq] at h
      have hpre := List.isPrefixOf_iff_prefix.mp hp
      have hlen : n.length ≤ (c :: rest).length := hpre.length_le
      have hp2 : n.isPrefixOf ((c :: rest) ++ t) = true :=
        List.isPrefixOf_iff_prefix.mpr (hpre.trans (List.prefix_append _ _))
      rw [List.cons_append]
      simp only [splitOnFirst]
      rw [List.cons_append] at hp2
      rw [if_pos hp2]
      rw [← List.cons_append, List.drop_append_of_le_length hlen]
      rw [← h.1, ← h.2]
    · rw [if_neg hp] at h
      match hsr : splitOnFirst n rest with
      | none =>
        rw [hsr] at h
        exact Option.noConfusion h
      | some (b2, a2) =>
        rw [hsr] at h
        simp at h
        obtain ⟨hy, hz⟩ := h
        have hrest := splitOnFirst_eq_some hsr
        have hlen2 : n.length ≤ rest.length := by
          have := congrArg List.length hrest
          simp only [List.length_append] at this
          omega
        have hp2 : ¬ n.isPrefixOf (c :: (rest ++ t)) = true := by
          intro hh
          apply hp
          have hpre2 := List.isPrefixOf_iff_prefix.mp hh
          have hA : n = (c :: (rest ++ t)).take n.length :=
            List.prefix_iff_eq_take.mp hpre2
          have hsp : c :: (rest ++ t) = (c :: rest) ++ t := by simp
          have hlen3 : n.length ≤ (c :: rest).length := by
            simp only [List.length_cons]
            omega
          have hB : n = (c :: rest).take n.length := by
            conv_lhs => rw [hA]
            rw [hsp, List.take_append_of_le_length hlen3]
          exact List.isPrefixOf_iff_prefix.mpr (List.prefix_iff_eq_take.mpr hB)
        rw [List.cons_append]
        simp only [splitOnFirst]
        rw [if_neg hp2, ih hsr]
        rw [← hy, ← hz]
        rfl

theorem findMatch_at {p m r : List Char}
    (h1 : hasInfix Smark ((p ++ Smark).dropLast) = false)
    (h2 : hasInfix Emark ((m ++ Emark).dropLast) = false) :
    findMatch (p ++ Smark ++ m ++ Emark ++ r) = some (p, Smark ++ m ++ Emark, r) := by
  have hs : splitOnFirst Smark (p ++ Smark ++ (m ++ Emark ++ r)) =
      some (p, m ++ Emark ++ r) :=
    splitOnFirst_at (by decide) h1
  have he : splitOnFirst Emark (m ++ Emark ++ r) = some (m, r) :=
    splitOnFirst_at (by decide) h2
  have hassoc : p ++ Smark ++ m ++ Emark ++ r = p ++ Smark ++ (m ++ Emark ++ r) := by
    simp
  unfold findMatch
  rw [hassoc]
  simp only [hs, he]

/-- The first match of a text of the form p ++ (Smark ++ b) ++ t, where b
contains the end marker, lies entirely inside p ++ Smark ++ b: it does
not depend on t.  This is the shape of a document right after a
successful splice. -/
theorem findMatch_after_repl {p b t y z : List Char}
    (h1 : hasInfix Smark ((p ++ Smark).dropLast) = false)
    (hb : splitOnFirst Emark b = some (y, z)) :
    findMatch (p ++ (Smark ++ b) ++ t) = some (p, Smark ++ y ++ Emark, z ++ t) := by
  have hs : splitOnFirst Smark (p ++ Smark ++ (b ++ t)) = some (p, b ++ t) :=
    splitOnFirst_at (by decide) h1
  have he : splitOnFirst Emark (b ++ t) = some (y, z ++ t) :=
    splitOnFirst_append_right (by decide) hb
  have hassoc : p ++ (Smark ++ b) ++ t = p ++ Smark ++ (b ++ t) := by simp
  unfold findMatch
  rw [hassoc]
  simp only [hs, he]

theorem findMatch_none_of_no_pair {cs : List Char}
    (h : ∀ a b c, cs ≠ a ++ Smark ++ b ++ Emark ++ c) : findMatch cs = none := by
  cases hm : findMatch cs with
  | none => rfl
  | some x =>
    obtain ⟨pre, m, rest⟩ := x
    obtain ⟨mid, hmm, hcs⟩ := findMatch_eq_some hm
    exfalso
    apply h pre mid rest
    rw [hcs, hmm]
    simp

theorem subAll_none {items : List TplItem} {cs : List Char}
    (h : findMatch cs = none) : subAll items cs = cs := by
  unfold subAll
  cases hcs : cs.length with
  | zero => rfl
  | succ k => simp only [subAllF, h]

theorem subAll_some {items : List TplItem} {cs p m r : List Char}
    (h : findMatch cs = some (p, m, r)) :
    subAll items cs = p ++ tplRender m items ++ subAll items r := by
  have hrest := findMatch_rest_length h
  obtain ⟨k, hk⟩ : ∃ k, cs.length = k + 1 := ⟨cs.length - 1, by omega⟩
  unfold subAll
  rw [hk]
  simp only [subAllF, h]
  rw [@subAllF_congr k r.length items r (by omega) (Nat.le_refl _)]

theorem tplRender_litTpl (m l : List Char) : tplRender m (litTpl l) = l := by
  induction l with
  | nil => rfl
  | cons c rest ih => simp only [litTpl, List.map_cons, tplRender]; rw [← litTpl, ih]

theorem hasBS_cons {c : Char} {l : List Char} :
    hasBS (c :: l) = ((c = '\\' : Bool) || hasBS l) := by
  simp [hasBS, List.contains_cons]
  by_cases hc : c = '\\'
  · subst hc; simp
  · simp [hc, Ne.symm hc]

theorem hasBS_append {a b : List Char} :
    hasBS (a ++ b) = (hasBS a || hasBS b) := by
  induction a with
  | nil => simp [hasBS]
  | cons c rest ih =>
    rw [List.cons_append, hasBS_cons, hasBS_cons, ih, Bool.or_assoc]

theorem tplParse_noBS {l : List Char} (h : hasBS l = false) :
    tplParse l = some (litTpl l) := by
  induction l with
  | nil => simp [tplParse, tplParseF, litTpl]
  | cons c rest ih =>
    rw [hasBS_cons] at h
    have hc : ¬ c = '\\' := by
      intro hcc
      rw [hcc] at h
      simp at h
    have hr : hasBS rest = false := by
      cases hb : hasBS rest with
      | false => rfl
      | true => rw [hb] at h; simp at h
    rw [tplParse_cons, if_neg hc, ih hr]
    simp [litTpl]

theorem replaceSection_of_noBS {content ns : List Char} (h : hasBS ns = false) :
    replaceSection content ns =
      some (subAll (litTpl (ns ++ '\n' :: Emark)) content) := by
  have hE : hasBS ('\n' :: Emark) = false := by decide
  have hall : hasBS (ns ++ '\n' :: Emark) = false := by
    rw [hasBS_append, h, hE]
    rfl
  rw [replaceSection, tplParse_noBS hall]

/-- String.intercalate starting from a head element keeps the head's
characters as a prefix. -/
theorem intercalate_data_head (s a : String) (as : List String) :
    ∃ tail, (String.intercalate s (a :: as)).data = a.data ++ tail := by
  have main : ∀ (as : List String) (acc : String),
      ∃ tail, (String.intercalate.go acc s as).data = acc.data ++ tail := by
    intro as
    induction as with
    | nil => exact fun acc => ⟨[], by simp [String.intercalate.go]⟩
    | cons b bs ih =>
      intro acc
      obtain ⟨t, ht⟩ := ih (acc ++ s ++ b)
      refine ⟨s.data ++ b.data ++ t, ?_⟩
      rw [String.intercalate.go, ht]
      simp [String.data_append]
  obtain ⟨t, ht⟩ := main as a
  exact ⟨t, by rw [String.intercalate, ht]⟩

/-- The rendered section always starts with the start heading followed
by a newline. -/
theorem generate_section_starts (topics : List (String × List String)) :
    ∃ b, (generate_section topics).data = Smark ++ '\n' :: b := by
  obtain ⟨t, ht⟩ :=
    intercalate_data_head "\n" "## 📑 Topics & Examples\n"
      ((sortTopics topics).flatMap (fun p => topicBlock p.1 p.2))
  refine ⟨t, ?_⟩
  rw [generate_section, ht]
  rfl

/-! ## Lemmas about the sorter -/

theorem pyInsert_perm {α : Type} (le : α → α → Bool) (x : α) (l : List α) :
    (pyInsert le x l).Perm (x :: l) := by
  induction l with
  | nil => exact List.Perm.refl _
  | cons y ys ih =>
    simp only [pyInsert]
    by_cases h : le x y
    · rw [if_pos h]
    · rw [if_neg h]
      exact (List.Perm.cons y ih).trans (List.Perm.swap x y ys)

theorem pySort_perm {α : Type} (le : α → α → Bool) (l : List α) :
    (pySort le l).Perm l := by
  induction l with
  | nil => exact List.Perm.refl _
  | cons x xs ih =>
    simp only [pySort]
    exact (pyInsert_perm le x (pySort le xs)).trans (List.Perm.cons x ih)

theorem pyInsert_pairwise {α : Type} {le : α → α → Bool}
    (htot : ∀ a b, le a b = true ∨ le b a = true)
    (htrans : ∀ a b c, le a b = true → le b c = true → le a c = true)
    {x : α} {l : List α} (hl : l.Pairwise (fun a b => le a b = true)) :
    (pyInsert le x l).Pairwise (fun a b => le a b = true) := by
  induction l with
  | nil => simp [pyInsert]
  | cons y ys ih =>
    obtain ⟨hy, hys⟩ := List.pairwise_cons.mp hl
    simp only [pyInsert]
    by_cases h : le x y
    · rw [if_pos h]
      refine List.pairwise_cons.mpr ⟨?_, hl⟩
      intro z hz
      rcases List.mem_cons.mp hz with hz | hz
      · rw [hz]; exact h
      · exact htrans x y z h (hy z hz)
    · rw [if_neg h]
      have hyx : le y x = true := (htot x y).resolve_left h
      refine List.pairwise_cons.mpr ⟨?_, ih hys⟩
      intro z hz
      have hz2 : z ∈ x :: ys := (pyInsert_perm le x ys).subset hz
      rcases List.mem_cons.mp hz2 with hz2 | hz2
      · rw [hz2]; exact hyx
      · exact hy z hz2

theorem pySort_pairwise {α : Type} {le : α → α → Bool}
    (htot : ∀ a b, le a b = true ∨ le b a = true)
    (htrans : ∀ a b c, le a b = true → le b c = true → le a c = true)
    (l : List α) :
    (pySort le l).Pairwise (fun a b => le a b = true) := by
  induction l with
  | nil => simp [pySort]
  | cons x xs ih =>
    simp only [pySort]
    exact pyInsert_pairwise htot htrans ih

theorem findMatch_none_of_no_start {cs : List Char}
    (h : hasInfix Smark cs = false) : findMatch cs = none := by
  unfold findMatch
  simp only [splitOnFirst_eq_none_iff.mpr h]

/-! ## Splicer claims -/

/-- Claim C1, counterexample: on a document with two marker regions,
re.sub (with no count argument) rewrites both regions, so the output the
claim predicts, with the second region left untouched, is not the actual
output. -/
theorem claim_C1_counterexample :
    replace_section
        "A\n## 📑 Topics & Examples\nOLD\n## 🛠 Requirements\nB\n## 📑 Topics & Examples\nOLD2\n## 🛠 Requirements\nC"
        "NEW" =
      some "A\nNEW\n## 🛠 Requirements\nB\nNEW\n## 🛠 Requirements\nC" ∧
    ("A\nNEW\n## 🛠 Requirements\nB\nNEW\n## 🛠 Requirements\nC" : String) ≠
      "A\nNEW\n## 🛠 Requirements\nB\n## 📑 Topics & Examples\nOLD2\n## 🛠 Requirements\nC" :=
  ⟨rfl, by decide⟩

/-- Claim C1 (amended): replace_section substitutes the block followed
by the end heading for every non-overlapping leftmost-shortest marker
region, not only the first.  For a document whose first region is the
span from p to the following end heading, and any backslash-free block,
the output replaces that region and processes the remainder r
recursively the same way. -/
theorem claim_C1 (p m r : List Char) (ns : String)
    (hb : hasBS ns.data = false)
    (h1 : hasInfix Smark ((p ++ Smark).dropLast) = false)
    (h2 : hasInfix Emark ((m ++ Emark).dropLast) = false) :
    replace_section (String.mk (p ++ Smark ++ m ++ Emark ++ r)) ns =
      some (String.mk (p ++ ns.data ++ '\n' :: Emark ++
        subAll (litTpl (ns.data ++ '\n' :: Emark)) r)) := by
  unfold replace_section
  rw [show (String.mk (p ++ Smark ++ m ++ Emark ++ r)).data =
      p ++ Smark ++ m ++ Emark ++ r from rfl]
  rw [replaceSection_of_noBS hb]
  rw [subAll_some (findMatch_at h1 h2), tplRender_litTpl]
  simp [List.append_assoc]

/-- Witness for C1 at a concrete document and block. -/
theorem claim_C1_witness :
    replace_section
        (String.mk (("A\n" : String).data ++ Smark ++ ("\nOLD\n" : String).data ++
          Emark ++ ("\nB" : String).data)) "NEW" =
      some (String.mk (("A\n" : String).data ++ ("NEW" : String).data ++ '\n' :: Emark ++
        subAll (litTpl (("NEW" : String).data ++ '\n' :: Emark)) ("\nB" : String).data)) :=
  claim_C1 ("A\n" : String).data ("\nOLD\n" : String).data ("\nB" : String).data "NEW"
    (by decide) (by decide) (by decide)

/-- Claim C3, counterexample: a rendered block whose display name
contains a backslash-j escape makes re.sub raise (bad escape) before any
matching happens, so a document without the marker pair is not returned
unchanged; the second conjunct shows the document has no start heading
at all. -/
theorem claim_C3_counterexample :
    replace_section "hello" (generate_section [("x", ["\\jA.java"])]) = none ∧
    hasInfix Smark ("hello" : String).data = false :=
  ⟨rfl, by decide⟩

/-- Claim C3 (amended): when the document nowhere decomposes around the
start heading followed later by the end heading, and the rendered block
contains no backslash (so template parsing cannot raise), the document
is returned unchanged with no error. -/
theorem claim_C3 (content : List Char) (ns : String)
    (hb : hasBS ns.data = false)
    (hnp : ∀ a b c : List Char, content ≠ a ++ Smark ++ b ++ Emark ++ c) :
    replace_section (String.mk content) ns = some (String.mk content) := by
  unfold replace_section
  rw [show (String.mk content).data = content from rfl]
  rw [replaceSection_of_noBS hb]
  rw [subAll_none (findMatch_none_of_no_pair hnp)]
  rfl

/-- Witness for C3 at the empty document. -/
theorem claim_C3_witness :
    replace_section (String.mk []) "NEW" = some (String.mk []) :=
  claim_C3 [] "NEW" (by decide) (fun a b c h => by
    have h2 := h.symm
    simp only [List.append_eq_nil] at h2
    exact absurd h2.1.1.1.2 (by decide))

/-- Claim C4, counterexample: with a second marker pair after the first
region, the text after the first matched end heading is itself
rewritten, hence not preserved: it is not even a suffix of the output. -/
theorem claim_C4_counterexample :
    replace_section
        "A\n## 📑 Topics & Examples\nOLD\n## 🛠 Requirements\nB\n## 📑 Topics & Examples\nSECOND\n## 🛠 Requirements\nC"
        "NEW" =
      some "A\nNEW\n## 🛠 Requirements\nB\nNEW\n## 🛠 Requirements\nC" ∧
    ("\nB\n## 📑 Topics & Examples\nSECOND\n## 🛠 Requirements\nC" : String).data.isSuffixOf
        ("A\nNEW\n## 🛠 Requirements\nB\nNEW\n## 🛠 Requirements\nC" : String).data = false :=
  ⟨rfl, by decide⟩

/-- Claim C4 (amended): when the document contains a single marker
region, the text before the start heading and the text after the
matched end heading are preserved byte for byte; only the region is
changed.  The extra hypothesis h3 states that no start heading occurs
after the matched region. -/
theorem claim_C4 (p m r : List Char) (ns : String)
    (hb : hasBS ns.data = false)
    (h1 : hasInfix Smark ((p ++ Smark).dropLast) = false)
    (h2 : hasInfix Emark ((m ++ Emark).dropLast) = false)
    (h3 : hasInfix Smark r = false) :
    replace_section (String.mk (p ++ Smark ++ m ++ Emark ++ r)) ns =
      some (String.mk (p ++ ns.data ++ '\n' :: Emark ++ r)) := by
  unfold replace_section
  rw [show (String.mk (p ++ Smark ++ m ++ Emark ++ r)).data =
      p ++ Smark ++ m ++ Emark ++ r from rfl]
  rw [replaceSection_of_noBS hb]
  rw [subAll_some (findMatch_at h1 h2), tplRender_litTpl]
  rw [subAll_none (findMatch_none_of_no_start h3)]
  simp [List.append_assoc]

/-- Witness for C4 at a concrete single-region document. -/
theorem claim_C4_witness :
    replace_section
        (String.mk (("X\n" : String).data ++ Smark ++ ("\nMID\n" : String).data ++
          Emark ++ ("\nY" : String).data)) "FRESH" =
      some (String.mk (("X\n" : String).data ++ ("FRESH" : String).data ++ '\n' :: Emark ++
        ("\nY" : String).data)) :=
  claim_C4 ("X\n" : String).data ("\nMID\n" : String).data ("\nY" : String).data "FRESH"
    (by decide) (by decide) (by decide) (by decide)

/-- One splice followed by a second splice of the same backslash-free
block: both succeed and the leftmost-shortest match span is the same in
both outputs.  The block must begin with the start heading followed by a
newline, which generate_section guarantees. -/
theorem replaceSection_round {p m r ns : List Char}
    (hb : hasBS ns = false)
    (hstart : ∃ b0, ns = Smark ++ '\n' :: b0)
    (h1 : hasInfix Smark ((p ++ Smark).dropLast) = false)
    (h2 : hasInfix Emark ((m ++ Emark).dropLast) = false) :
    ∃ out1 out2 : List Char,
      replaceSection (p ++ Smark ++ m ++ Emark ++ r) ns = some out1 ∧
      replaceSection out1 ns = some out2 ∧
      markerRegion out2 = markerRegion out1 ∧
      markerRegion out1 ≠ none := by
  obtain ⟨b0, hs0⟩ := hstart
  have hrepl : ns ++ '\n' :: Emark = Smark ++ (('\n' :: b0) ++ '\n' :: Emark) := by
    rw [hs0]
    simp
  have hinf : hasInfix Emark (('\n' :: b0) ++ '\n' :: Emark) = true := by
    apply hasInfix_iff.mpr
    apply List.IsSuffix.isInfix
    exact ⟨('\n' :: b0) ++ ['\n'], by simp⟩
  rcases hsq : splitOnFirst Emark (('\n' :: b0) ++ '\n' :: Emark) with _ | ⟨y, z⟩
  · rw [splitOnFirst_eq_none_iff] at hsq
    rw [hsq] at hinf
    exact absurd hinf (by simp)
  · have t1def : subAll (litTpl (ns ++ '\n' :: Emark)) r =
        subAll (litTpl (ns ++ '\n' :: Emark)) r := rfl
    refine ⟨p ++ (Smark ++ (('\n' :: b0) ++ '\n' :: Emark)) ++
        subAll (litTpl (ns ++ '\n' :: Emark)) r,
      p ++ (Smark ++ (('\n' :: b0) ++ '\n' :: Emark)) ++
        subAll (litTpl (ns ++ '\n' :: Emark))
          (z ++ subAll (litTpl (ns ++ '\n' :: Emark)) r),
      ?_, ?_, ?_, ?_⟩
    · rw [replaceSection_of_noBS hb]
      rw [subAll_some (findMatch_at h1 h2), tplRender_litTpl]
      rw [hrepl]
    · rw [replaceSection_of_noBS hb]
      rw [subAll_some (findMatch_after_repl h1 hsq), tplRender_litTpl]
      rw [hrepl]
    · unfold markerRegion
      rw [@findMatch_after_repl p (('\n' :: b0) ++ '\n' :: Emark)
            (subAll (litTpl (ns ++ '\n' :: Emark))
              (z ++ subAll (litTpl (ns ++ '\n' :: Emark)) r)) y z h1 hsq]
      rw [@findMatch_after_repl p (('\n' :: b0) ++ '\n' :: Emark)
            (subAll (litTpl (ns ++ '\n' :: Emark)) r) y z h1 hsq]
      rfl
    · unfold markerRegion
      rw [@findMatch_after_repl p (('\n' :: b0) ++ '\n' :: Emark)
            (subAll (litTpl (ns ++ '\n' :: Emark)) r) y z h1 hsq]
      simp

/-- Claim C5: splicing the rendered section twice is stable on the
marker region.  For any topics mapping whose rendered block is
backslash-free, and any document whose first marker region decomposes as
stated, both runs succeed and the marker region (the span of the
leftmost-shortest match) of the document after run two equals the one
after run one. -/
theorem claim_C5 (topics : List (String × List String)) (p m r : List Char)
    (hb : hasBS (generate_section topics).data = false)
    (h1 : hasInfix Smark ((p ++ Smark).dropLast) = false)
    (h2 : hasInfix Emark ((m ++ Emark).dropLast) = false) :
    ∃ out1 out2 : List Char,
      replace_section (String.mk (p ++ Smark ++ m ++ Emark ++ r))
          (generate_section topics) = some (String.mk out1) ∧
      replace_section (String.mk out1) (generate_section topics) =
          some (String.mk out2) ∧
      markerRegion out2 = markerRegion out1 ∧
      markerRegion out1 ≠ none := by
  have hstart : ∃ b0, (generate_section topics).data = Smark ++ '\n' :: b0 :=
    generate_section_starts topics
  obtain ⟨out1, out2, e1, e2, hreg, hne⟩ :=
    @replaceSection_round p m r (generate_section topics).data hb hstart h1 h2
  refine ⟨out1, out2, ?_, ?_, hreg, hne⟩
  · unfold replace_section
    rw [show (String.mk (p ++ Smark ++ m ++ Emark ++ r)).data =
        p ++ Smark ++ m ++ Emark ++ r from rfl]
    rw [e1]
    rfl
  · unfold replace_section
    rw [show (String.mk out1).data = out1 from rfl]
    rw [e2]
    rfl


/-- Witness for C5 at a concrete topics mapping and document. -/
theorem claim_C5_witness :
    ∃ out1 out2 : List Char,
      replace_section
          (String.mk (("A\n" : String).data ++ Smark ++ ("\nOLD\n" : String).data ++
            Emark ++ ("\nB" : String).data))
          (generate_section [("x", ["A.java"])]) = some (String.mk out1) ∧
      replace_section (String.mk out1) (generate_section [("x", ["A.java"])]) =
          some (String.mk out2) ∧
      markerRegion out2 = markerRegion out1 ∧
      markerRegion out1 ≠ none :=
  claim_C5 [("x", ["A.java"])] ("A\n" : String).data ("\nOLD\n" : String).data
    ("\nB" : String).data (by decide) (by decide) (by decide)

/-- Claim C10: replace_section treats the rendered block as a regex
replacement template, not literal text.  A backslash-free block parses
to the all-literal template and is spliced verbatim, while a block whose
display name carries a backslash can abort the operation: the second
conjunct shows a rendered block, produced from a file name containing a
backslash-j, on which re.sub raises (modelled as none) even though the
document contains the marker pair. -/
theorem claim_C10 :
    (∀ (content : List Char) (ns : String), hasBS ns.data = false →
      replace_section (String.mk content) ns =
        some (String.mk (subAll (litTpl (ns.data ++ '\n' :: Emark)) content))) ∧
    replace_section "A\n## 📑 Topics & Examples\nOLD\n## 🛠 Requirements\nB"
        (generate_section [("x", ["\\jA.java"])]) = none := by
  constructor
  · intro content ns hb
    unfold replace_section
    rw [show (String.mk content).data = content from rfl]
    rw [replaceSection_of_noBS hb]
    rfl
  · rfl

/-- Witness for C10 at a concrete document and backslash-free block. -/
theorem claim_C10_witness :
    replace_section (String.mk ("doc" : String).data) "NEW" =
      some (String.mk (subAll (litTpl (("NEW" : String).data ++ '\n' :: Emark))
        ("doc" : String).data)) :=
  claim_C10.1 ("doc" : String).data "NEW" (by decide)

/-! ## Collector lemmas -/

/-- Extension of an optional accumulated list by newly appended files:
no entry is created when nothing is appended. -/
def extOpt (o : Option (List String)) (l : List String) : Option (List String) :=
  match o with
  | some x => some (x ++ l)
  | none => if l = [] then none else some l

theorem addFile_lookup_self (acc : Topics) (key f : String) :
    (addFile acc key f).lookup key = some ((acc.lookup key).getD [] ++ [f]) := by
  induction acc with
  | nil => simp [addFile, List.lookup]
  | cons p rest ih =>
    obtain ⟨k, fs⟩ := p
    by_cases hk : k = key
    · subst hk
      simp [addFile, List.lookup]
    · have hbeq : (key == k) = false := by
        simp only [beq_eq_false_iff_ne, ne_eq]
        exact fun hc => hk hc.symm
      simp only [addFile, if_neg hk]
      simp [List.lookup, hbeq, ih]

theorem addFile_lookup_ne (acc : Topics) (key f k2 : String) (h : k2 ≠ key) :
    (addFile acc key f).lookup k2 = acc.lookup k2 := by
  induction acc with
  | nil =>
    have hbeq : (k2 == key) = false := by
      simp only [beq_eq_false_iff_ne, ne_eq]
      exact h
    simp [addFile, List.lookup, hbeq]
  | cons p rest ih =>
    obtain ⟨k, fs⟩ := p
    by_cases hk : k = key
    · subst hk
      have hbeq : (k2 == k) = false := by
        simp only [beq_eq_false_iff_ne, ne_eq]
        exact h
      simp [addFile, List.lookup, hbeq]
    · simp only [addFile, if_neg hk]
      simp [List.lookup, ih]

theorem addFile_keys (acc : Topics) (key f : String) :
    (addFile acc key f).map Prod.fst =
      if key ∈ acc.map Prod.fst then acc.map Prod.fst
      else acc.map Prod.fst ++ [key] := by
  induction acc with
  | nil => simp [addFile]
  | cons p rest ih =>
    obtain ⟨k, fs⟩ := p
    by_cases hk : k = key
    · subst hk
      simp [addFile]
    · simp only [addFile, if_neg hk, List.map_cons]
      rw [ih]
      by_cases hmem : key ∈ rest.map Prod.fst
      · rw [if_pos hmem, if_pos (by simp [hmem])]
      · rw [if_neg hmem, if_neg (by
          simp only [List.map_cons, List.mem_cons]
          rintro (hc | hc)
          · exact hk hc.symm
          · exact hmem hc)]
        simp

theorem addFile_nodupKeys (acc : Topics) (key f : String)
    (h : (acc.map Prod.fst).Nodup) :
    ((addFile acc key f).map Prod.fst).Nodup := by
  rw [addFile_keys]
  by_cases hmem : key ∈ acc.map Prod.fst
  · rwa [if_pos hmem]
  · rw [if_neg hmem]
    simp [List.nodup_append, h, hmem]

theorem collectDir_cons (key f : String) (fs : List String) (acc : Topics) :
    collectDir key (f :: fs) acc =
      collectDir key fs (if pyEndsWith f ".java" then addFile acc key f else acc) := rfl

theorem collectDir_lookup_self (key : String) (fs : List String) (acc : Topics) :
    (collectDir key fs acc).lookup key = extOpt (acc.lookup key) (javaF fs) := by
  induction fs generalizing acc with
  | nil =>
    rw [show collectDir key [] acc = acc from rfl]
    cases h : acc.lookup key
    · simp [extOpt, javaF]
    · simp [extOpt, javaF]
  | cons f fs ih =>
    rw [collectDir_cons]
    by_cases hf : pyEndsWith f ".java" = true
    · rw [if_pos hf, ih, addFile_lookup_self]
      have hjf : javaF (f :: fs) = f :: javaF fs := by
        simp [javaF, List.filter_cons, hf]
      rw [hjf]
      cases h : acc.lookup key
      · simp [extOpt]
      · simp [extOpt, List.append_assoc]
    · rw [if_neg hf, ih]
      have hjf : javaF (f :: fs) = javaF fs := by
        simp [javaF, List.filter_cons, hf]
      rw [hjf]

theorem collectDir_lookup_ne (key : String) (fs : List String) (acc : Topics)
    (k2 : String) (h : k2 ≠ key) :
    (collectDir key fs acc).lookup k2 = acc.lookup k2 := by
  induction fs generalizing acc with
  | nil => rfl
  | cons f fs ih =>
    show (collectDir key fs (if pyEndsWith f ".java" then addFile acc key f else acc)).lookup k2 = _
    by_cases hf : pyEndsWith f ".java"
    · rw [if_pos hf, ih, addFile_lookup_ne _ _ _ _ h]
    · rw [if_neg (by simpa using hf), ih]

theorem collectDir_nodupKeys (key : String) (fs : List String) (acc : Topics)
    (h : (acc.map Prod.fst).Nodup) :
    ((collectDir key fs acc).map Prod.fst).Nodup := by
  induction fs generalizing acc with
  | nil => exact h
  | cons f fs ih =>
    show (((collectDir key fs (if pyEndsWith f ".java" then addFile acc key f else acc))).map Prod.fst).Nodup
    by_cases hf : pyEndsWith f ".java"
    · rw [if_pos hf]
      exact ih _ (addFile_nodupKeys acc key f h)
    · rw [if_neg (by simpa using hf)]
      exact ih _ h

theorem treeKeys_mk (rel : String) (files : List String)
    (subs : DirForest) :
    treeKeys rel (.mk files subs) =
      rel :: (dirsOfSubs rel subs).map Prod.fst := by
  simp [treeKeys, dirsOf]

theorem dirsOfSubs_cons (rel n : String) (sub : DirTree)
    (rest : DirForest) :
    dirsOfSubs rel (.cons n sub rest) =
      dirsOf (childKey rel n) sub ++ dirsOfSubs rel rest := rfl

theorem collectWalk_mk (rel : String) (files : List String)
    (subs : DirForest) (acc : Topics) :
    collectWalk rel (.mk files subs) acc =
      collectSubs rel subs (collectDir rel files acc) := rfl

theorem collectSubs_nil (rel : String) (acc : Topics) :
    collectSubs rel .nil acc = acc := rfl

theorem collectSubs_cons (rel n : String) (sub : DirTree)
    (rest : DirForest) (acc : Topics) :
    collectSubs rel (.cons n sub rest) acc =
      collectSubs rel rest (collectWalk (childKey rel n) sub acc) := by
  cases sub with
  | mk sf ss =>
    have hg : forestSize (DirForest.cons n (DirTree.mk sf ss) rest) =
        (treeSize (DirTree.mk sf ss) + forestSize rest) + 1 := by
      rw [forestSize_cons]; omega
    simp only [collectSubs, collectWalk, subdirs_mk, files_mk]
    rw [hg, collectSubsF_succ_cons, subdirs_mk, files_mk]
    have hposr := forestSize_pos rest
    have hposs := forestSize_pos ss
    have htre : treeSize (DirTree.mk sf ss) = 1 + forestSize ss := treeSize_mk sf ss
    have hinner : collectSubsF (treeSize (DirTree.mk sf ss) + forestSize rest)
          (childKey rel n) ss (collectDir (childKey rel n) sf acc) =
        collectSubsF (forestSize ss) (childKey rel n) ss
          (collectDir (childKey rel n) sf acc) :=
      collectSubsF_congr _ _ (childKey rel n) ss _ (by omega) (Nat.le_refl _)
    rw [hinner]
    exact collectSubsF_congr _ _ rel rest _ (by omega) (Nat.le_refl _)

/-- Frame property of the walk, by strong induction on tree size: a key
outside the relpath keys of a subtree is untouched by walking it. -/
theorem collect_frame_aux : ∀ N : Nat,
    (∀ (rel : String) (t : DirTree), sizeOf t ≤ N → ∀ (acc : Topics) (K : String),
      K ∉ treeKeys rel t → (collectWalk rel t acc).lookup K = acc.lookup K) ∧
    (∀ (rel : String) (subs : DirForest), sizeOf subs ≤ N →
      ∀ (acc : Topics) (K : String), K ∉ (dirsOfSubs rel subs).map Prod.fst →
      (collectSubs rel subs acc).lookup K = acc.lookup K) := by
  intro N
  induction N using Nat.strong_induction_on with
  | h N ih =>
    constructor
    · intro rel t hle acc K hK
      cases t with
      | mk files subs =>
        have hspec : sizeOf (DirTree.mk files subs) = 1 + sizeOf files + sizeOf subs := by
          simp
        have hlt : sizeOf subs < N := by omega
        rw [treeKeys_mk, List.mem_cons] at hK
        push_neg at hK
        rw [collectWalk_mk]
        rw [(ih (sizeOf subs) hlt).2 rel subs (Nat.le_refl _) _ K hK.2]
        exact collectDir_lookup_ne rel files acc K hK.1
    · intro rel subs hle acc K hK
      cases subs with
      | nil => rw [collectSubs_nil]
      | cons n sub rest =>
        have hspec : sizeOf (DirForest.cons n sub rest) =
            1 + sizeOf n + sizeOf sub + sizeOf rest := by
          simp
        have hsub : sizeOf sub < N := by omega
        have hrest : sizeOf rest < N := by omega
        rw [dirsOfSubs_cons, List.map_append, List.mem_append] at hK
        push_neg at hK
        rw [collectSubs_cons]
        rw [(ih (sizeOf rest) hrest).2 rel rest (Nat.le_refl _) _ K hK.2]
        exact (ih (sizeOf sub) hsub).1 (childKey rel n) sub (Nat.le_refl _) acc K hK.1

theorem collectWalk_frame (rel : String) (t : DirTree) (acc : Topics) (K : String)
    (hK : K ∉ treeKeys rel t) :
    (collectWalk rel t acc).lookup K = acc.lookup K :=
  (collect_frame_aux (sizeOf t)).1 rel t (Nat.le_refl _) acc K hK

theorem collectSubs_frame (rel : String) (subs : DirForest)
    (acc : Topics) (K : String)
    (hK : K ∉ (dirsOfSubs rel subs).map Prod.fst) :
    (collectSubs rel subs acc).lookup K = acc.lookup K :=
  (collect_frame_aux (sizeOf subs)).2 rel subs (Nat.le_refl _) acc K hK

/-- The walk preserves uniqueness of keys in the accumulator. -/
theorem collect_nodup_aux : ∀ N : Nat,
    (∀ (rel : String) (t : DirTree), sizeOf t ≤ N → ∀ acc : Topics,
      (acc.map Prod.fst).Nodup → ((collectWalk rel t acc).map Prod.fst).Nodup) ∧
    (∀ (rel : String) (subs : DirForest), sizeOf subs ≤ N →
      ∀ acc : Topics, (acc.map Prod.fst).Nodup →
      ((collectSubs rel subs acc).map Prod.fst).Nodup) := by
  intro N
  induction N using Nat.strong_induction_on with
  | h N ih =>
    constructor
    · intro rel t hle acc h
      cases t with
      | mk files subs =>
        have hspec : sizeOf (DirTree.mk files subs) = 1 + sizeOf files + sizeOf subs := by
          simp
        have hlt : sizeOf subs < N := by omega
        rw [collectWalk_mk]
        exact (ih (sizeOf subs) hlt).2 rel subs (Nat.le_refl _) _
          (collectDir_nodupKeys rel files acc h)
    · intro rel subs hle acc h
      cases subs with
      | nil => rw [collectSubs_nil]; exact h
      | cons n sub rest =>
        have hspec : sizeOf (DirForest.cons n sub rest) =
            1 + sizeOf n + sizeOf sub + sizeOf rest := by
          simp
        have hsub : sizeOf sub < N := by omega
        have hrest : sizeOf rest < N := by omega
        rw [collectSubs_cons]
        exact (ih (sizeOf rest) hrest).2 rel rest (Nat.le_refl _) _
          ((ih (sizeOf sub) hsub).1 (childKey rel n) sub (Nat.le_refl _) acc h)

theorem collectWalk_nodupKeys (rel : String) (t : DirTree) (acc : Topics)
    (h : (acc.map Prod.fst).Nodup) :
    ((collectWalk rel t acc).map Prod.fst).Nodup :=
  (collect_nodup_aux (sizeOf t)).1 rel t (Nat.le_refl _) acc h

/-- Content of the walk: with distinct relpath keys and a fresh
accumulator, the key of each directory of the tree looks up exactly the
.java files of that directory (or is absent when there are none). -/
theorem collect_content_aux : ∀ N : Nat,
    (∀ (rel : String) (t : DirTree), sizeOf t ≤ N →
      ∀ (acc : Topics) (K : String) (d : DirTree),
      (treeKeys rel t).Nodup →
      (∀ k ∈ treeKeys rel t, acc.lookup k = none) →
      (K, d) ∈ dirsOf rel t →
      (collectWalk rel t acc).lookup K = extOpt none (javaF d.files)) ∧
    (∀ (rel : String) (subs : DirForest), sizeOf subs ≤ N →
      ∀ (acc : Topics) (K : String) (d : DirTree),
      ((dirsOfSubs rel subs).map Prod.fst).Nodup →
      (∀ k ∈ (dirsOfSubs rel subs).map Prod.fst, acc.lookup k = none) →
      (K, d) ∈ dirsOfSubs rel subs →
      (collectSubs rel subs acc).lookup K = extOpt none (javaF d.files)) := by
  intro N
  induction N using Nat.strong_induction_on with
  | h N ih =>
    constructor
    · intro rel t hle acc K d hnd hfresh hmem
      cases t with
      | mk files subs =>
        have hspec : sizeOf (DirTree.mk files subs) = 1 + sizeOf files + sizeOf subs := by
          simp
        have hlt : sizeOf subs < N := by omega
        rw [treeKeys_mk] at hnd hfresh
        have hrelnot : rel ∉ (dirsOfSubs rel subs).map Prod.fst :=
          (List.nodup_cons.mp hnd).1
        have hndsub : ((dirsOfSubs rel subs).map Prod.fst).Nodup :=
          (List.nodup_cons.mp hnd).2
        rw [collectWalk_mk]
        have hmem2 : (K, d) = (rel, DirTree.mk files subs) ∨
            (K, d) ∈ dirsOfSubs rel subs := by
          simpa [dirsOf] using hmem
        rcases hmem2 with heq | hsub
        · injection heq with hK hd
          subst hK
          subst hd
          rw [collectSubs_frame K subs _ K hrelnot]
          rw [collectDir_lookup_self]
          rw [hfresh K (List.mem_cons_self K _)]
          rfl
        · apply (ih (sizeOf subs) hlt).2 rel subs (Nat.le_refl _)
            (collectDir rel files acc) K d hndsub ?_ hsub
          intro k hk
          have hkne : k ≠ rel := fun hc => hrelnot (hc ▸ hk)
          rw [collectDir_lookup_ne rel files acc k hkne]
          exact hfresh k (List.mem_cons_of_mem rel hk)
    · intro rel subs hle acc K d hnd hfresh hmem
      cases subs with
      | nil => exact absurd hmem (by simp [dirsOfSubs])
      | cons n sub rest =>
        have hspec : sizeOf (DirForest.cons n sub rest) =
            1 + sizeOf n + sizeOf sub + sizeOf rest := by
          simp
        have hsub2 : sizeOf sub < N := by omega
        have hrest : sizeOf rest < N := by omega
        rw [dirsOfSubs_cons] at hnd hfresh hmem
        rw [List.map_append] at hnd hfresh
        have hdisj := List.disjoint_of_nodup_append hnd
        have hndl : ((dirsOf (childKey rel n) sub).map Prod.fst).Nodup :=
          (List.nodup_append.mp hnd).1
        have hndr : ((dirsOfSubs rel rest).map Prod.fst).Nodup :=
          (List.nodup_append.mp hnd).2.1
        rw [collectSubs_cons]
        rcases List.mem_append.mp hmem with hl | hr
        · have hKl : K ∈ (dirsOf (childKey rel n) sub).map Prod.fst :=
            List.mem_map.mpr ⟨(K, d), hl, rfl⟩
          have hKnotr : K ∉ (dirsOfSubs rel rest).map Prod.fst := fun hc =>
            hdisj hKl hc
          rw [collectSubs_frame rel rest _ K hKnotr]
          apply (ih (sizeOf sub) hsub2).1 (childKey rel n) sub (Nat.le_refl _)
            acc K d hndl ?_ hl
          intro k hk
          exact hfresh k (List.mem_append.mpr (Or.inl hk))
        · apply (ih (sizeOf rest) hrest).2 rel rest (Nat.le_refl _)
            (collectWalk (childKey rel n) sub acc) K d hndr ?_ hr
          intro k hk
          have hknotl : k ∉ treeKeys (childKey rel n) sub := fun hc => hdisj hc hk
          rw [collectWalk_frame (childKey rel n) sub acc k hknotl]
          exact hfresh k (List.mem_append.mpr (Or.inr hk))

theorem collectWalk_content (rel : String) (t : DirTree) (acc : Topics)
    (K : String) (d : DirTree)
    (hnd : (treeKeys rel t).Nodup)
    (hfresh : ∀ k ∈ treeKeys rel t, acc.lookup k = none)
    (hmem : (K, d) ∈ dirsOf rel t) :
    (collectWalk rel t acc).lookup K = extOpt none (javaF d.files) :=
  (collect_content_aux (sizeOf t)).1 rel t (Nat.le_refl _) acc K d hnd hfresh hmem

/-! ## Collector and renderer claims -/

theorem string_data_inj {a b : String} (h : a.data = b.data) : a = b := by
  cases a
  cases b
  exact congrArg String.mk h

/-- Claim C9: os.walk over the nonexistent scan root yields nothing, so
collect_examples returns the empty mapping and generate_section renders
only the heading; no error path is taken at the scan stage. -/
theorem claim_C9 :
    collect_examples none = [] ∧
    generate_section (collect_examples none) = "## 📑 Topics & Examples\n" :=
  ⟨rfl, rfl⟩

/-- Claim C6: in a tree whose directory relpath keys are distinct, every
file ending in ".java" inside the directory with key K appears in the
list the mapping holds at K, that list is exactly the .java files of
that directory, and the mapping's keys are distinct — so the file
appears in exactly one example list, keyed by the relpath of its
containing directory. -/
theorem claim_C6 (t : DirTree) (K : String) (d : DirTree) (f : String)
    (hnd : (treeKeys "." t).Nodup)
    (hdir : (K, d) ∈ dirsOf "." t)
    (hf : f ∈ d.files) (hjava : pyEndsWith f ".java" = true) :
    ∃ fs, (collect_examples (some t)).lookup K = some fs ∧ f ∈ fs ∧
      fs = javaF d.files ∧
      ((collect_examples (some t)).map Prod.fst).Nodup := by
  have hmemf : f ∈ javaF d.files := by
    rw [javaF]
    exact List.mem_filter.mpr ⟨hf, hjava⟩
  have hne : javaF d.files ≠ [] := by
    intro hc
    rw [hc] at hmemf
    exact absurd hmemf (List.not_mem_nil f)
  have hlook := collectWalk_content "." t [] K d hnd (fun k _ => rfl) hdir
  refine ⟨javaF d.files, ?_, hmemf, rfl, ?_⟩
  · show (collectWalk "." t []).lookup K = some (javaF d.files)
    rw [hlook]
    simp [extOpt, hne]
  · show ((collectWalk "." t []).map Prod.fst).Nodup
    exact collectWalk_nodupKeys "." t [] List.nodup_nil

/-- Claim C6, witness: a root holding a mixed file list and the
subdirectory "alg" holding S.java. -/
theorem claim_C6_witness :
    ∃ fs, (collect_examples (some (DirTree.mk ["R.java", "notes.txt"]
          (.cons "alg" (.mk ["S.java"] .nil) .nil)))).lookup "alg" = some fs ∧
      "S.java" ∈ fs ∧ fs = javaF (DirTree.mk ["S.java"] .nil).files ∧
      ((collect_examples (some (DirTree.mk ["R.java", "notes.txt"]
          (.cons "alg" (.mk ["S.java"] .nil) .nil)))).map Prod.fst).Nodup :=
  claim_C6
    (DirTree.mk ["R.java", "notes.txt"] (.cons "alg" (.mk ["S.java"] .nil) .nil))
    "alg" (DirTree.mk ["S.java"] .nil) "S.java"
    (by decide)
    (List.mem_cons_of_mem _ (List.mem_cons_self _ _))
    (by decide) (by decide)

/-- Claim C2, counterexample: str.capitalize lower-cases the rest of the
key, so for the topic key "aB" the emitted bullet line is "- **Ab**",
not the "- **AB**" the claim predicts. -/
theorem claim_C2_counterexample :
    topicLineSpec "aB" = "- **AB**" ∧
    topicLine "aB" = "- **Ab**" ∧
    topicLine "aB" ≠ topicLineSpec "aB" ∧
    generate_section [("aB", [])] = "## 📑 Topics & Examples\n\n- **Ab**\n" :=
  ⟨rfl, rfl, by decide, rfl⟩

/-- Claim C2 (amended): the bullet line shows the key with the first
character upper-cased and every remaining character LOWER-cased
(str.capitalize semantics), wrapped in the bold marker. -/
theorem claim_C2 (t : String) (c : Char) (cs : List Char) (h : t.data = c :: cs) :
    (topicLine t).data =
      "- **".data ++ (c.toUpper :: cs.map Char.toLower) ++ "**".data := by
  have hcap : pyCapitalize t = String.mk (c.toUpper :: cs.map Char.toLower) := by
    rw [pyCapitalize, h]
  rw [topicLine, hcap]
  rw [String.data_append, String.data_append]

/-- Claim C2, witness: the amended bullet line at the key "aB". -/
theorem claim_C2_witness :
    (topicLine "aB").data =
      "- **".data ++ ('a'.toUpper :: ['B'].map Char.toLower) ++ "**".data :=
  claim_C2 "aB" 'a' ['B'] rfl

/-- A stable sort by a linearly ordered key of a list with distinct keys
is strictly increasing in the key. -/
theorem pySort_pairwise_lt {α : Type} (key : α → List Char) (l : List α)
    (hnd : (l.map key).Nodup) :
    (pySort (fun a b => decide (key a ≤ key b)) l).Pairwise
      (fun a b => key a < key b) := by
  have htot : ∀ a b : α,
      (decide (key a ≤ key b)) = true ∨ (decide (key b ≤ key a)) = true := by
    intro a b
    rcases le_total (key a) (key b) with h | h
    · exact Or.inl (decide_eq_true h)
    · exact Or.inr (decide_eq_true h)
  have htrans : ∀ a b c : α, decide (key a ≤ key b) = true →
      decide (key b ≤ key c) = true → decide (key a ≤ key c) = true := by
    intro a b c h1 h2
    exact decide_eq_true (le_trans (of_decide_eq_true h1) (of_decide_eq_true h2))
  have hle := pySort_pairwise htot htrans l
  have hperm := pySort_perm (fun a b => decide (key a ≤ key b)) l
  have hnd2 : ((pySort (fun a b => decide (key a ≤ key b)) l).map key).Nodup :=
    ((hperm.map key).nodup_iff).mpr hnd
  have hne : (pySort (fun a b => decide (key a ≤ key b)) l).Pairwise
      (fun a b => key a ≠ key b) := List.pairwise_map.mp hnd2
  exact (hle.and hne).imp
    (fun hab => lt_of_le_of_ne (of_decide_eq_true hab.1) hab.2)

/-- Claim C7: with unique topic keys and unique file names per topic,
generate_section renders the topics sorted strictly increasing by key
and the files of each topic sorted strictly increasing by name; the
rendered orders are permutations of the inputs. -/
theorem claim_C7 (topics : List (String × List String))
    (hkeys : (topics.map Prod.fst).Nodup)
    (hfiles : ∀ p ∈ topics, p.2.Nodup) :
    (sortTopics topics).Perm topics ∧
    (sortTopics topics).Pairwise (fun a b => a.1.data < b.1.data) ∧
    (∀ p ∈ topics, (sortFiles p.2).Perm p.2 ∧
      (sortFiles p.2).Pairwise (fun a b => a.data < b.data)) ∧
    generate_section topics =
      String.intercalate "\n" ("## 📑 Topics & Examples\n" ::
        (sortTopics topics).flatMap (fun p => topicBlock p.1 p.2)) := by
  have hinj : Function.Injective String.data := fun a b hab => string_data_inj hab
  refine ⟨pySort_perm _ _, ?_, ?_, rfl⟩
  · have h1 : ((topics.map Prod.fst).map String.data).Nodup := hkeys.map hinj
    rw [List.map_map] at h1
    exact pySort_pairwise_lt (fun p : String × List String => p.1.data) topics h1
  · intro p hp
    refine ⟨pySort_perm _ _, ?_⟩
    have h2 : (p.2.map String.data).Nodup := (hfiles p hp).map hinj
    exact pySort_pairwise_lt (fun s : String => s.data) p.2 h2

/-- Claim C7, witness: two topics out of key order, one of them holding
two files out of name order. -/
theorem claim_C7_witness :
    (sortTopics [("b", ["B.java"]), ("a", ["A2.java", "A1.java"])]).Perm
        [("b", ["B.java"]), ("a", ["A2.java", "A1.java"])] ∧
    (sortTopics [("b", ["B.java"]), ("a", ["A2.java", "A1.java"])]).Pairwise
        (fun a b => a.1.data < b.1.data) ∧
    (∀ p ∈ [("b", ["B.java"]), ("a", ["A2.java", "A1.java"])],
      (sortFiles p.2).Perm p.2 ∧
        (sortFiles p.2).Pairwise (fun a b => a.data < b.data)) ∧
    generate_section [("b", ["B.java"]), ("a", ["A2.java", "A1.java"])] =
      String.intercalate "\n" ("## 📑 Topics & Examples\n" ::
        (sortTopics [("b", ["B.java"]), ("a", ["A2.java", "A1.java"])]).flatMap
          (fun p => topicBlock p.1 p.2)) :=
  claim_C7 [("b", ["B.java"]), ("a", ["A2.java", "A1.java"])]
    (by decide) (by decide)

theorem hasBS_map_slash (l : List Char) :
    hasBS (l.map (fun c => if c = '\\' then '/' else c)) = false := by
  induction l with
  | nil => rfl
  | cons c cs ih =>
    rw [List.map_cons, hasBS_cons, ih, Bool.or_false]
    by_cases hc : c = '\\'
    · rw [if_pos hc]
      rfl
    · rw [if_neg hc]
      exact decide_eq_false hc

/-- The link target never holds a backslash: the final replace maps each
one to a forward slash. -/
theorem slashify_noBS (s : String) : hasBS (slashify s).data = false :=
  hasBS_map_slash s.data

/-- Claim C8: for a file name ending in ".java" under a topic key with
no leading or trailing slash issues, the bullet's display text is the
file name with exactly ".java" stripped (appending it back restores the
name) and the link target is the forward-slash join of the scan root,
the key and the name, with no backslash remaining. -/
theorem claim_C8 (topic f : String)
    (hjava : pyEndsWith f ".java" = true)
    (htns : pyStartsWith topic "/" = false)
    (hfns : pyStartsWith f "/" = false)
    (htslash : pyEndsWith (BASE_DIR ++ "/" ++ topic) "/" = false) :
    exampleLine topic f =
      "  - [" ++ pySliceDrop f 5 ++ "](" ++
        slashify (BASE_DIR ++ "/" ++ topic ++ "/" ++ f) ++ ")" ∧
    pySliceDrop f 5 ++ ".java" = f ∧
    hasBS (examplePath topic f).data = false := by
  have hj1 : pjoin BASE_DIR topic = BASE_DIR ++ "/" ++ topic := by
    rw [pjoin, if_neg (by simp [htns]), if_neg (by decide)]
  have hne : BASE_DIR ++ "/" ++ topic ≠ "" := by
    intro hc
    have hd := congrArg String.data hc
    rw [String.data_append, String.data_append] at hd
    have h1 := (List.append_eq_nil.mp hd).1
    have h2 := (List.append_eq_nil.mp h1).2
    exact absurd h2 (by decide)
  have hj2 : pjoin (BASE_DIR ++ "/" ++ topic) f =
      BASE_DIR ++ "/" ++ topic ++ "/" ++ f := by
    rw [pjoin, if_neg (by simp [hfns]), if_neg (by simp [hne, htslash])]
  refine ⟨?_, ?_, ?_⟩
  · rw [exampleLine, examplePath, hj1, hj2]
  · have hsuf : ".java".data <:+ f.data := by
      rw [pyEndsWith] at hjava
      exact List.isSuffixOf_iff_suffix.mp hjava
    obtain ⟨p, hp⟩ := hsuf
    have h5 : (".java".data).length = 5 := rfl
    have hdata : (pySliceDrop f 5).data = p := by
      show f.data.take (f.data.length - 5) = p
      rw [← hp, List.length_append, h5]
      have hlen : p.length + 5 - 5 = p.length := by omega
      rw [hlen]
      exact List.take_left p (".java".data)
    apply string_data_inj
    rw [String.data_append, hdata]
    exact hp
  · rw [examplePath]
    exact slashify_noBS _

/-- Claim C8, witness: topic "alg" and file Sort.java. -/
theorem claim_C8_witness :
    exampleLine "alg" "Sort.java" =
      "  - [" ++ pySliceDrop "Sort.java" 5 ++ "](" ++
        slashify (BASE_DIR ++ "/" ++ "alg" ++ "/" ++ "Sort.java") ++ ")" ∧
    pySliceDrop "Sort.java" 5 ++ ".java" = "Sort.java" ∧
    hasBS (examplePath "alg" "Sort.java").data = false :=
  claim_C8 "alg" "Sort.java" (by decide) (by decide) (by decide) (by decide)

end UpdateReadme
